import Mathlib

/-!
# Verification of the pixelcrate media preload/cache pipeline

A shallow embedding of the client-side media preload/cache subsystem of the
pixelcrate repository:

* the generic `LRUCache` of `src/hooks/useImagePreloader.ts` (backing the
  image cache and the per-hook video metadata cache);
* the `VideoMetadataLRUCache` of `src/lib/videoUtils.ts` with its
  size-and-memory eviction policy;
* the `ThrottledPreloadQueue` of `src/hooks/useImagePreloader.ts` with its
  priority comparator, concurrency-limited dispatch and dedup rules;
* the `ImageDecoderService` of `src/services/imageDecoderService.ts`
  (request-id allocation, pending-request table, timeout behaviour).

JavaScript `Map`s are modelled as association lists in insertion order
(head = oldest entry), which is exactly the iteration order the code relies
on for its LRU behaviour.  Machine numbers are modelled as `Nat`/`Int`;
where the source multiplies by the double-precision literal `0.2` or divides
by `1024 * 1024`, a comment justifies the integer reading.
-/

set_option linter.unusedSectionVars false

namespace Pixelcrate

/-! ## JavaScript Map primitives

A JS `Map` iterates entries in insertion order.  `set` of a present key
updates the value in place, `set` of an absent key appends at the end,
`delete` removes the key's entry, `get`/`has` look a key up. -/

variable {K V : Type} [DecidableEq K]

/-- JS `Map.prototype.get` (also the model of `Map.prototype.has` via
`Option.isSome`). -/
def mapLookup (k : K) : List (K × V) → Option V
  | [] => none
  | (k', v) :: t => if k' = k then some v else mapLookup k t

/-- JS `Map.prototype.delete`: drops the entry of key `k` (on a map with
duplicate-free keys, `filter` removes exactly that entry). -/
def mapDelete (k : K) (l : List (K × V)) : List (K × V) :=
  l.filter (fun p => decide (p.1 ≠ k))

/-- JS `Map.prototype.set`: update in place when the key is present,
append at the end otherwise. -/
def mapSet (k : K) (v : V) (l : List (K × V)) : List (K × V) :=
  if (mapLookup k l).isSome then
    l.map (fun p => if p.1 = k then (k, v) else p)
  else l ++ [(k, v)]

/-- The keys of a map, in insertion order. -/
def mapKeys (l : List (K × V)) : List K := l.map Prod.fst

@[simp] theorem mapKeys_nil : mapKeys ([] : List (K × V)) = [] := rfl

@[simp] theorem mapKeys_cons (p : K × V) (t : List (K × V)) :
    mapKeys (p :: t) = p.1 :: mapKeys t := rfl

@[simp] theorem mapKeys_append (l₁ l₂ : List (K × V)) :
    mapKeys (l₁ ++ l₂) = mapKeys l₁ ++ mapKeys l₂ := by
  simp [mapKeys]

theorem mapDelete_cons (k : K) (p : K × V) (t : List (K × V)) :
    mapDelete k (p :: t) =
      if p.1 = k then mapDelete k t else p :: mapDelete k t := by
  unfold mapDelete
  rw [List.filter_cons]
  by_cases h : p.1 = k <;> simp [h]

theorem mapLookup_isSome_iff {k : K} {l : List (K × V)} :
    (mapLookup k l).isSome ↔ k ∈ mapKeys l := by
  induction l with
  | nil => simp [mapLookup]
  | cons p t ih =>
    obtain ⟨k', v⟩ := p
    by_cases h : k' = k
    · subst h
      simp [mapLookup]
    · have h' : ¬(k = k') := fun hh => h hh.symm
      simp only [mapLookup, if_neg h, mapKeys_cons, List.mem_cons]
      rw [ih]
      simp [h']

theorem mapLookup_eq_none_of_not_mem {k : K} {l : List (K × V)}
    (h : k ∉ mapKeys l) : mapLookup k l = none := by
  cases h2 : mapLookup k l with
  | none => rfl
  | some v => exact absurd (mapLookup_isSome_iff.mp (by simp [h2])) h

theorem mapDelete_of_not_mem {k : K} {l : List (K × V)}
    (h : k ∉ mapKeys l) : mapDelete k l = l := by
  induction l with
  | nil => rfl
  | cons p t ih =>
    simp only [mapKeys_cons, List.mem_cons, not_or] at h
    have h1 : ¬(p.1 = k) := fun hh => h.1 hh.symm
    rw [mapDelete_cons, if_neg h1, ih h.2]

theorem mapKeys_sublist_of_mapDelete (k : K) (l : List (K × V)) :
    (mapKeys (mapDelete k l)).Sublist (mapKeys l) :=
  (List.filter_sublist l).map Prod.fst

theorem not_mem_mapKeys_mapDelete (k : K) (l : List (K × V)) :
    k ∉ mapKeys (mapDelete k l) := by
  intro hmem
  simp only [mapKeys, List.mem_map] at hmem
  obtain ⟨p, hp, hfst⟩ := hmem
  have := List.of_mem_filter hp
  simp [hfst] at this

theorem mapSet_of_not_mem {k : K} (v : V) {l : List (K × V)}
    (h : k ∉ mapKeys l) : mapSet k v l = l ++ [(k, v)] := by
  simp [mapSet, mapLookup_eq_none_of_not_mem h]

theorem length_mapDelete_add_one {k : K} {l : List (K × V)}
    (hnd : (mapKeys l).Nodup) (hmem : k ∈ mapKeys l) :
    (mapDelete k l).length + 1 = l.length := by
  induction l with
  | nil => simp at hmem
  | cons p t ih =>
    simp only [mapKeys_cons, List.nodup_cons, List.mem_cons] at hnd hmem
    by_cases h : p.1 = k
    · have hk : k ∉ mapKeys t := h ▸ hnd.1
      rw [mapDelete_cons, if_pos h, mapDelete_of_not_mem hk]
      simp
    · have hmem' : k ∈ mapKeys t := by
        rcases hmem with h' | h'
        · exact absurd h'.symm h
        · exact h'
      rw [mapDelete_cons, if_neg h]
      simp only [List.length_cons]
      rw [← ih hnd.2 hmem']

theorem mapDelete_head {fk : K} {fv : V} {t : List (K × V)}
    (hnd : (mapKeys ((fk, fv) :: t)).Nodup) :
    mapDelete fk ((fk, fv) :: t) = t := by
  simp only [mapKeys_cons, List.nodup_cons] at hnd
  rw [mapDelete_cons]
  simp only [if_pos rfl]
  exact mapDelete_of_not_mem hnd.1

theorem nodup_append_singleton {k : K} {v : V} {l : List (K × V)}
    (hnd : (mapKeys l).Nodup) (h : k ∉ mapKeys l) :
    (mapKeys (l ++ [(k, v)])).Nodup := by
  rw [mapKeys_append]
  refine List.Nodup.append hnd (by simp) ?_
  intro a ha hmem
  simp only [mapKeys_cons, mapKeys_nil, List.mem_singleton] at hmem
  subst hmem
  exact h ha

/-! ## `LRUCache` (src/hooks/useImagePreloader.ts, lines 29 to 123)

The cache is generic in the source; the image cache instantiates it at
string keys and `HTMLImageElement` values with `maxSize = 200`.  The
predicate `isImg` models the `value instanceof HTMLImageElement` test.
Dropping such a value clears its `src`/`srcset` fields ("release"); every
mutating operation therefore returns, next to the new cache, the list of
values it released this way. -/

structure LRUCache (K V : Type) where
  maxSize : Nat
  entries : List (K × V)

/-- A freshly constructed cache. -/
def LRUCache.empty (maxSize : Nat) : LRUCache K V := ⟨maxSize, []⟩

/-- `LRUCache.get`: on a hit, delete then re-set the key so that it moves to
the most-recently-used (last) position; no side effect on a miss. -/
def LRUCache.get (c : LRUCache K V) (k : K) : Option V × LRUCache K V :=
  match mapLookup k c.entries with
  | some v => (some v, ⟨c.maxSize, mapSet k v (mapDelete k c.entries)⟩)
  | none => (none, c)

/-- `LRUCache.set`: if the key is present, delete it (so the final `set`
moves it to the end); otherwise, if the cache is at capacity, remove the
first (least recently used) entry, releasing its value when it is an
`HTMLImageElement`; finally insert the new pair at the end. -/
def LRUCache.set (isImg : V → Bool) (c : LRUCache K V) (k : K) (v : V) :
    LRUCache K V × List V :=
  if (mapLookup k c.entries).isSome then
    (⟨c.maxSize, mapSet k v (mapDelete k c.entries)⟩, [])
  else if c.maxSize ≤ c.entries.length then
    match c.entries.head? with
    | some (fk, fv) =>
        (⟨c.maxSize, mapSet k v (mapDelete fk c.entries)⟩,
          if isImg fv then [fv] else [])
    | none => (⟨c.maxSize, mapSet k v c.entries⟩, [])
  else
    (⟨c.maxSize, mapSet k v c.entries⟩, [])

/-- `LRUCache.delete`: releases the value (when it is an image element)
before removing the entry; returns whether the key was present. -/
def LRUCache.del (isImg : V → Bool) (c : LRUCache K V) (k : K) :
    (Bool × LRUCache K V) × List V :=
  match mapLookup k c.entries with
  | some v =>
      ((true, ⟨c.maxSize, mapDelete k c.entries⟩), if isImg v then [v] else [])
  | none => ((false, c), [])

/-- `LRUCache.clear`: releases every image-element value, then clears. -/
def LRUCache.clearOp (isImg : V → Bool) (c : LRUCache K V) :
    LRUCache K V × List V :=
  (⟨c.maxSize, []⟩, (c.entries.map Prod.snd).filter isImg)

/-- A sequence of `set` calls, applied left to right. -/
def LRUCache.runSets (isImg : V → Bool) (ops : List (K × V))
    (c : LRUCache K V) : LRUCache K V :=
  ops.foldl (fun acc p => (acc.set isImg p.1 p.2).1) c

/-- Well-formedness: duplicate-free keys and entry count within capacity. -/
def LRUCache.Inv (c : LRUCache K V) : Prop :=
  (mapKeys c.entries).Nodup ∧ c.entries.length ≤ c.maxSize

theorem LRUCache.set_of_mem {isImg : V → Bool} {c : LRUCache K V} {k : K}
    (v : V) (hmem : k ∈ mapKeys c.entries) :
    c.set isImg k v = (⟨c.maxSize, mapDelete k c.entries ++ [(k, v)]⟩, []) := by
  have hhas : (mapLookup k c.entries).isSome := mapLookup_isSome_iff.mpr hmem
  unfold LRUCache.set
  rw [if_pos hhas, mapSet_of_not_mem v (not_mem_mapKeys_mapDelete k c.entries)]

theorem LRUCache.set_of_not_mem_full {isImg : V → Bool} {c : LRUCache K V}
    {k : K} {fk : K} {fv : V} {t : List (K × V)} (v : V)
    (hmem : k ∉ mapKeys c.entries) (hnd : (mapKeys c.entries).Nodup)
    (hfull : c.maxSize ≤ c.entries.length)
    (hcons : c.entries = (fk, fv) :: t) :
    c.set isImg k v =
      (⟨c.maxSize, t ++ [(k, v)]⟩, if isImg fv then [fv] else []) := by
  have hhas : ¬(mapLookup k c.entries).isSome = true := fun h =>
    hmem (mapLookup_isSome_iff.mp h)
  have hkt : k ∉ mapKeys t := by
    rw [hcons] at hmem
    simp only [mapKeys_cons, List.mem_cons, not_or] at hmem
    exact hmem.2
  unfold LRUCache.set
  rw [if_neg hhas, if_pos hfull, hcons]
  simp only [List.head?_cons]
  rw [mapDelete_head (hcons ▸ hnd), mapSet_of_not_mem v hkt]

theorem LRUCache.set_of_not_mem_space {isImg : V → Bool} {c : LRUCache K V}
    {k : K} (v : V) (hmem : k ∉ mapKeys c.entries)
    (hspace : c.entries.length < c.maxSize) :
    c.set isImg k v = (⟨c.maxSize, c.entries ++ [(k, v)]⟩, []) := by
  have hhas : ¬(mapLookup k c.entries).isSome = true := fun h =>
    hmem (mapLookup_isSome_iff.mp h)
  unfold LRUCache.set
  rw [if_neg hhas, if_neg (not_le.mpr hspace), mapSet_of_not_mem v hmem]

theorem LRUCache.set_maxSize (isImg : V → Bool) (c : LRUCache K V) (k : K)
    (v : V) : (c.set isImg k v).1.maxSize = c.maxSize := by
  unfold LRUCache.set
  split
  · rfl
  · split
    · split <;> rfl
    · rfl

theorem LRUCache.set_inv {isImg : V → Bool} {c : LRUCache K V} {k : K} {v : V}
    (hm : 1 ≤ c.maxSize) (hinv : c.Inv) : (c.set isImg k v).1.Inv := by
  obtain ⟨hnd, hlen⟩ := hinv
  by_cases hmem : k ∈ mapKeys c.entries
  · rw [LRUCache.set_of_mem v hmem]
    have hnot : k ∉ mapKeys (mapDelete k c.entries) :=
      not_mem_mapKeys_mapDelete k c.entries
    have hnd' : (mapKeys (mapDelete k c.entries)).Nodup :=
      (mapKeys_sublist_of_mapDelete k c.entries).nodup hnd
    refine ⟨nodup_append_singleton hnd' hnot, ?_⟩
    simp only [List.length_append, List.length_cons, List.length_nil]
    have := length_mapDelete_add_one hnd hmem
    simp only [LRUCache.entries] at *
    omega
  · by_cases hfull : c.maxSize ≤ c.entries.length
    · have hne : c.entries ≠ [] := by
        intro h
        rw [h] at hfull
        simp only [List.length_nil, Nat.le_zero] at hfull
        omega
      obtain ⟨⟨fk, fv⟩, t, hcons⟩ := List.exists_cons_of_ne_nil hne
      rw [LRUCache.set_of_not_mem_full v hmem hnd hfull hcons]
      have hndc := hcons ▸ hnd
      simp only [mapKeys_cons, List.nodup_cons] at hndc
      have hkt : k ∉ mapKeys t := by
        rw [hcons] at hmem
        simp only [mapKeys_cons, List.mem_cons, not_or] at hmem
        exact hmem.2
      refine ⟨nodup_append_singleton hndc.2 hkt, ?_⟩
      have hlt : t.length + 1 = c.entries.length := by rw [hcons]; rfl
      simp only [List.length_append, List.length_cons, List.length_nil]
      omega
    · rw [LRUCache.set_of_not_mem_space v hmem (not_le.mp hfull)]
      refine ⟨nodup_append_singleton hnd hmem, ?_⟩
      simp only [List.length_append, List.length_cons, List.length_nil]
      have := not_le.mp hfull
      omega

theorem LRUCache.runSets_cons (isImg : V → Bool) (p : K × V)
    (t : List (K × V)) (c : LRUCache K V) :
    LRUCache.runSets isImg (p :: t) c =
      LRUCache.runSets isImg t (c.set isImg p.1 p.2).1 := rfl

theorem LRUCache.runSets_maxSize (isImg : V → Bool) (ops : List (K × V))
    (c : LRUCache K V) :
    (LRUCache.runSets isImg ops c).maxSize = c.maxSize := by
  induction ops generalizing c with
  | nil => rfl
  | cons p t ih =>
    rw [LRUCache.runSets_cons, ih, LRUCache.set_maxSize]

theorem LRUCache.runSets_inv {isImg : V → Bool} {c : LRUCache K V}
    (hm : 1 ≤ c.maxSize) (hinv : c.Inv) (ops : List (K × V)) :
    (LRUCache.runSets isImg ops c).Inv := by
  induction ops generalizing c with
  | nil => exact hinv
  | cons p t ih =>
    rw [LRUCache.runSets_cons]
    exact ih (by rw [LRUCache.set_maxSize]; exact hm) (LRUCache.set_inv hm hinv)

/-! ## Cache instances (src/hooks/useImagePreloader.ts, lines 126 to 132) -/

/-- Max number of images to cache. -/
def IMAGE_CACHE_MAX_SIZE : Nat := 200

/-- The global image cache, `new LRUCache(IMAGE_CACHE_MAX_SIZE)`.  Values are
`HTMLImageElement`s in the source; the value type stays abstract here. -/
def imageCache0 (V : Type) : LRUCache String V :=
  LRUCache.empty IMAGE_CACHE_MAX_SIZE

/-- C1.  For every sequence of `set` calls on the image LRU cache
(capacity 200), after each call the entry count is at most `maxSize`;
`set` on a present key leaves the count unchanged; `set` on a new key at
capacity evicts the least-recently-used (first) entry before inserting. -/
theorem c1_lru_count_ceiling {V : Type} (isImg : V → Bool)
    (ops : List (String × V)) (c : LRUCache String V) (k : String) (v : V)
    (hinv : c.Inv) :
    (LRUCache.runSets isImg ops (imageCache0 V)).entries.length ≤
        IMAGE_CACHE_MAX_SIZE
    ∧ (k ∈ mapKeys c.entries →
        (c.set isImg k v).1.entries.length = c.entries.length)
    ∧ (k ∉ mapKeys c.entries → c.entries.length = c.maxSize → 1 ≤ c.maxSize →
        ∀ fk fv t, c.entries = (fk, fv) :: t →
          (c.set isImg k v).1.entries = t ++ [(k, v)]
          ∧ (c.set isImg k v).2 = (if isImg fv then [fv] else [])) := by
  refine ⟨?_, ?_, ?_⟩
  · have hinv0 : (imageCache0 V).Inv := by
      constructor <;> simp [imageCache0, LRUCache.empty]
    have hm0 : 1 ≤ (imageCache0 V).maxSize := by
      simp [imageCache0, LRUCache.empty, IMAGE_CACHE_MAX_SIZE]
    have h := (@LRUCache.runSets_inv String V _ isImg (imageCache0 V)
      hm0 hinv0 ops).2
    have hmax := LRUCache.runSets_maxSize isImg ops (imageCache0 V)
    rw [hmax] at h
    exact h
  · intro hmem
    rw [LRUCache.set_of_mem v hmem]
    have := length_mapDelete_add_one hinv.1 hmem
    simp only [List.length_append, List.length_cons, List.length_nil]
    omega
  · intro hmem hlen _ fk fv t hcons
    rw [LRUCache.set_of_not_mem_full v hmem hinv.1 (le_of_eq hlen.symm) hcons]
    exact ⟨rfl, rfl⟩

/-- C1 witness: the theorem applied at a capacity-1 cache holding `("x", 5)`,
inserting the fresh key `"y"`. -/
theorem c1_lru_count_ceiling_witness :
    ((LRUCache.runSets (fun _ => true) [("a", 1)] (imageCache0 Nat)).entries.length ≤
        IMAGE_CACHE_MAX_SIZE)
    ∧ (({ maxSize := 1, entries := [("x", 5)] } : LRUCache String Nat).set
          (fun _ => true) "y" 7).1.entries = [] ++ [("y", 7)] := by
  have h := c1_lru_count_ceiling (fun _ => true) [("a", 1)]
    ({ maxSize := 1, entries := [("x", 5)] } : LRUCache String Nat) "y" 7
    (by refine ⟨?_, ?_⟩ <;> decide)
  refine ⟨h.1, ?_⟩
  exact (h.2.2 (by decide) (by decide) (by decide) "x" 5 [] rfl).1

/-! ## C6: concrete LRU refresh scenario (capacity 3, A B C, get A, D) -/

/-- The `instanceof HTMLImageElement` test for a cache that stores only
image handles (here represented by their numeric ids). -/
def isImgAll : Nat → Bool := fun _ => true

/-- set A, set B, set C on an empty capacity-3 cache. -/
def lruABC : LRUCache String Nat :=
  ((((LRUCache.empty 3).set isImgAll "A" 1).1.set isImgAll "B" 2).1.set
    isImgAll "C" 3).1

/-- `get "A"` refreshes A to the most-recently-used position. -/
def lruRefA : LRUCache String Nat := (lruABC.get "A").2

/-- `set "D"` at capacity: forces one eviction. -/
def lruFinal : LRUCache String Nat × List Nat := lruRefA.set isImgAll "D" 4

/-- C6.  After set A, set B, set C, get A, set D on a capacity-3 LRU cache,
the evicted entry is B (its handle 2 is the one released), and the cache
holds exactly A, C, D with MRU order C, A, D. -/
theorem c6_lru_refresh_evicts_b :
    mapKeys lruFinal.1.entries = ["C", "A", "D"]
    ∧ lruFinal.2 = [2]
    ∧ (lruFinal.1.get "B").1 = none
    ∧ (lruFinal.1.get "A").1 = some 1 := by
  decide

/-! ## C8: release-on-drop behaviour of the image LRU cache -/

/-- A reachable capacity-2 cache holding the handle 1 under key "A". -/
def c8cache : LRUCache String Nat := ((LRUCache.empty 2).set isImgAll "A" 1).1

/-- Replacing key "A" by a new handle. -/
def c8replace : LRUCache String Nat × List Nat := c8cache.set isImgAll "A" 2

/-- C8 counterexample.  `set` on an already-present key drops the old
handle 1 (it is no longer among the cached values) but the release log of
the call is empty: the dropped handle is never released, contradicting the
claim that every drop releases the handle exactly once. -/
theorem c8_replace_drops_without_release :
    c8replace.1.entries = [("A", 2)] ∧ c8replace.2 = [] := by
  decide

/-- C8 amended.  Eviction at capacity, `delete` and `clear` release each
dropped `HTMLImageElement` value exactly once before dropping it, but `set`
replacing an existing entry drops the prior value without releasing it. -/
theorem c8_release_on_evict_delete_clear {K V : Type} [DecidableEq K]
    (isImg : V → Bool) (c : LRUCache K V) (k : K) (v v' : V) :
    (mapLookup k c.entries = some v' → (c.set isImg k v).2 = [])
    ∧ (k ∉ mapKeys c.entries → (mapKeys c.entries).Nodup →
        c.maxSize ≤ c.entries.length →
        ∀ fk fv t, c.entries = (fk, fv) :: t → isImg fv →
          (c.set isImg k v).2 = [fv])
    ∧ (mapLookup k c.entries = some v' → isImg v' →
        (c.del isImg k).2 = [v'])
    ∧ (c.clearOp isImg).2 = (c.entries.map Prod.snd).filter isImg := by
  refine ⟨?_, ?_, ?_, rfl⟩
  · intro hsome
    have hmem : k ∈ mapKeys c.entries :=
      mapLookup_isSome_iff.mp (by simp [hsome])
    rw [LRUCache.set_of_mem v hmem]
  · intro hmem hnd hfull fk fv t hcons himg
    rw [LRUCache.set_of_not_mem_full v hmem hnd hfull hcons, if_pos himg]
  · intro hsome himg
    unfold LRUCache.del
    rw [hsome]
    simp [himg]

/-- C8 amended witness: at a capacity-1 cache holding `("x", 5)`, eviction
by a fresh insert releases 5 exactly once, delete releases 5 exactly once,
and replacing "x" releases nothing. -/
theorem c8_release_on_evict_delete_clear_witness :
    ((({ maxSize := 1, entries := [("x", 5)] } : LRUCache String Nat).set
        isImgAll "x" 7).2 = [])
    ∧ ((({ maxSize := 1, entries := [("x", 5)] } : LRUCache String Nat).set
        isImgAll "y" 7).2 = [5])
    ∧ ((({ maxSize := 1, entries := [("x", 5)] } : LRUCache String Nat).del
        isImgAll "x").2 = [5]) := by
  have h := c8_release_on_evict_delete_clear isImgAll
    ({ maxSize := 1, entries := [("x", 5)] } : LRUCache String Nat) "x" 7 5
  have h2 := c8_release_on_evict_delete_clear isImgAll
    ({ maxSize := 1, entries := [("x", 5)] } : LRUCache String Nat) "y" 7 5
  refine ⟨h.1 (by decide), ?_, h.2.2.1 (by decide) (by decide)⟩
  exact h2.2.1 (by decide) (by decide) (by decide) "x" 5 [] rfl (by decide)

/-! ## `ThrottledPreloadQueue` (src/hooks/useImagePreloader.ts, lines 134 to 300)

The queue holds items `{ url, priority, distance }`; `loading` is the JS
`Set` of urls whose decode is in flight; `imageCache.has(url)` is modelled
by membership of the url in the list of currently cached keys. -/

/-- Scroll direction, updated by the scroll listener (lines 134 to 159). -/
inductive ScrollDir
  | up
  | down
  | idle
deriving DecidableEq

/-- One pending queue item (line 163). -/
structure QItem where
  url : String
  priority : Int
  distance : Int
deriving DecidableEq

/-- Reduced concurrent loading for better performance (line 165). -/
def maxConcurrent : Nat := 4

/-- Milliseconds between batch processing (line 166). -/
def throttleDelay : Nat := 100

/-- The comparator passed to `this.queue.sort` (lines 183 to 202): higher
priority first, then smaller distance; the scroll-direction arm re-compares
the same distances (the source comments intend a directional preference). -/
def queueCmp (dir : ScrollDir) (a b : QItem) : Int :=
  let priorityDiff := b.priority - a.priority
  if priorityDiff ≠ 0 then priorityDiff
  else
    let distanceDiff := a.distance - b.distance
    if distanceDiff ≠ 0 then distanceDiff
    else
      match dir with
      | .down => a.distance - b.distance
      | .up => b.distance - a.distance
      | .idle => 0

/-- `sortQueue` (line 182): JS `Array.prototype.sort` is a stable sort that
orders `a` before `b` when the comparator is nonpositive; modelled by the
stable `List.mergeSort`. -/
def sortQueue (dir : ScrollDir) (q : List QItem) : List QItem :=
  q.mergeSort (fun a b => decide (queueCmp dir a b ≤ 0))

/-- Mutable state of a `ThrottledPreloadQueue`. -/
structure TPQueue where
  queue : List QItem
  loading : List String
  lastProcessTime : Nat
deriving DecidableEq

/-- JS `Set.prototype.add`: append if absent. -/
def setAdd (x : String) (l : List String) : List String :=
  if x ∈ l then l else l ++ [x]

/-- `ThrottledPreloadQueue.add` (lines 169 to 180), without the trailing
`processQueue()` call (modelled as its own step): no-op when the url is
in flight or cached; otherwise drop any pending item with the same url,
push the new item and re-sort. -/
def TPQueue.add (cache : List String) (dir : ScrollDir) (s : TPQueue)
    (url : String) (priority distance : Int) : TPQueue :=
  if url ∈ s.loading ∨ url ∈ cache then s
  else
    { s with
      queue := sortQueue dir
        (s.queue.filter (fun i => decide (i.url ≠ url)) ++
          [⟨url, priority, distance⟩]) }

/-- The synchronous part of `processQueue` (lines 205 to 231), up to the
`await`: throttle check, concurrency check, shift one item, skip it if it
became cached, otherwise mark it in flight. -/
def TPQueue.processStep (cache : List String) (s : TPQueue) (now : Nat) :
    TPQueue :=
  if now - s.lastProcessTime < throttleDelay then s
  else if maxConcurrent ≤ s.loading.length ∨ s.queue = [] then s
  else
    match s.queue with
    | [] => s
    | item :: rest =>
      if item.url ∈ cache then
        { s with queue := rest, lastProcessTime := now }
      else
        { s with
          queue := rest
          lastProcessTime := now
          loading := setAdd item.url s.loading }

/-- The `finally` block of `processQueue` (line 227): the decode of `url`
settled, remove it from the in-flight set. -/
def TPQueue.completeStep (s : TPQueue) (url : String) : TPQueue :=
  { s with loading := s.loading.erase url }

/-- `ThrottledPreloadQueue.clear` (lines 284 to 287). -/
def TPQueue.clearStep (s : TPQueue) : TPQueue :=
  { s with queue := [], loading := [] }

/-- Combined state of the queue and the image cache's key set. -/
structure PreloadSys where
  q : TPQueue
  cache : List String

/-- The atomic transitions of the preload pipeline: an `add` call, one
synchronous `processQueue` pass, the settling of one decode (which on
success stores the image in the cache before the `finally` block runs),
a `clear`, and an arbitrary cache mutation by the rest of the hook
(cache pruning, `clearCache`). -/
inductive PreloadStep : PreloadSys → PreloadSys → Prop
  | add (url : String) (p d : Int) (dir : ScrollDir) (s : PreloadSys) :
      PreloadStep s ⟨s.q.add s.cache dir url p d, s.cache⟩
  | process (now : Nat) (s : PreloadSys) :
      PreloadStep s ⟨s.q.processStep s.cache now, s.cache⟩
  | complete (url : String) (ok : Bool) (s : PreloadSys) :
      PreloadStep s
        ⟨s.q.completeStep url, if ok then setAdd url s.cache else s.cache⟩
  | clear (s : PreloadSys) : PreloadStep s ⟨s.q.clearStep, s.cache⟩
  | cacheUpdate (newCache : List String) (s : PreloadSys) :
      PreloadStep s ⟨s.q, newCache⟩

/-- The initial state: empty queue, nothing in flight, empty cache. -/
def preloadInit : PreloadSys := ⟨⟨[], [], 0⟩, []⟩

/-- States reachable from the initial state. -/
def PreloadReachable (s : PreloadSys) : Prop :=
  Relation.ReflTransGen PreloadStep preloadInit s

theorem length_setAdd_le (x : String) (l : List String) :
    (setAdd x l).length ≤ l.length + 1 := by
  unfold setAdd
  by_cases h : x ∈ l <;> simp [h]

theorem preloadStep_loading_le {s s' : PreloadSys}
    (hstep : PreloadStep s s')
    (h : s.q.loading.length ≤ maxConcurrent) :
    s'.q.loading.length ≤ maxConcurrent := by
  cases hstep with
  | add url p d dir s =>
    unfold TPQueue.add
    by_cases hc : url ∈ s.q.loading ∨ url ∈ s.cache <;> simp [hc, h]
  | process now s =>
    unfold TPQueue.processStep
    split
    · exact h
    · split
      · exact h
      · rename_i h2
        push_neg at h2
        split
        · exact h
        · rename_i item rest heq
          split
          · exact h
          · have h4 := length_setAdd_le item.url s.q.loading
            show (setAdd item.url s.q.loading).length ≤ maxConcurrent
            have hlt : s.q.loading.length < maxConcurrent := h2.1
            omega
  | complete url ok s =>
    have : (s.q.loading.erase url).length ≤ s.q.loading.length :=
      (List.erase_sublist url s.q.loading).length_le
    unfold TPQueue.completeStep
    simp only
    omega
  | clear s => simp [TPQueue.clearStep]
  | cacheUpdate newCache s => exact h

/-- C3.  In every state reachable by any interleaving of queue operations,
at most `maxConcurrent = 4` decode operations are in flight. -/
theorem c3_concurrency_ceiling (s : PreloadSys)
    (h : PreloadReachable s) : s.q.loading.length ≤ maxConcurrent := by
  induction h with
  | refl => simp [preloadInit, maxConcurrent]
  | tail _ hstep ih => exact preloadStep_loading_le hstep ih

/-- C3 witness: the concurrency bound at a concrete reachable state (one
`add` followed by one `processQueue` pass that puts "u" in flight). -/
theorem c3_concurrency_ceiling_witness :
    ((⟨(preloadInit.q.add preloadInit.cache .idle "u" 1 0).processStep
        preloadInit.cache 100, preloadInit.cache⟩ : PreloadSys)).q.loading.length ≤
      maxConcurrent := by
  have h1 : PreloadStep preloadInit
      ⟨preloadInit.q.add preloadInit.cache .idle "u" 1 0, preloadInit.cache⟩ :=
    PreloadStep.add "u" 1 0 .idle preloadInit
  have h2 : PreloadStep
      ⟨preloadInit.q.add preloadInit.cache .idle "u" 1 0, preloadInit.cache⟩
      ⟨(preloadInit.q.add preloadInit.cache .idle "u" 1 0).processStep
        preloadInit.cache 100, preloadInit.cache⟩ :=
    PreloadStep.process 100
      ⟨preloadInit.q.add preloadInit.cache .idle "u" 1 0, preloadInit.cache⟩
  exact c3_concurrency_ceiling _ ((Relation.ReflTransGen.refl.tail h1).tail h2)

/-- C4.  An `add` of a key that is in flight or cached is a no-op; an `add`
of a fresh key leaves the queue duplicate-free, with exactly one item for
that key carrying the latest priority/distance (last write wins), and all
items for other keys untouched. -/
theorem c4_enqueue_dedup (cache : List String) (dir : ScrollDir)
    (s : TPQueue) (url : String) (p d : Int)
    (hnd : (s.queue.map QItem.url).Nodup) :
    ((url ∈ s.loading ∨ url ∈ cache) → s.add cache dir url p d = s)
    ∧ (url ∉ s.loading → url ∉ cache →
        (((s.add cache dir url p d).queue.map QItem.url).Nodup
        ∧ (s.add cache dir url p d).queue.countP
            (fun i => decide (i.url = url)) = 1
        ∧ (⟨url, p, d⟩ : QItem) ∈ (s.add cache dir url p d).queue
        ∧ ∀ i : QItem, i.url ≠ url →
            (i ∈ (s.add cache dir url p d).queue ↔ i ∈ s.queue))) := by
  constructor
  · intro hc
    unfold TPQueue.add
    rw [if_pos hc]
  · intro hl hc
    have hcond : ¬(url ∈ s.loading ∨ url ∈ cache) := by
      push_neg
      exact ⟨hl, hc⟩
    have hq : (s.add cache dir url p d).queue =
        sortQueue dir (s.queue.filter (fun i => decide (i.url ≠ url)) ++
          [⟨url, p, d⟩]) := by
      unfold TPQueue.add
      rw [if_neg hcond]
    have hperm : ((s.add cache dir url p d).queue).Perm
        (s.queue.filter (fun i => decide (i.url ≠ url)) ++ [⟨url, p, d⟩]) := by
      rw [hq]
      exact List.mergeSort_perm _ _
    have hfilter_nodup :
        ((s.queue.filter (fun i => decide (i.url ≠ url))).map QItem.url).Nodup :=
      ((List.filter_sublist s.queue).map QItem.url).nodup hnd
    have hfilter_not :
        url ∉ (s.queue.filter (fun i => decide (i.url ≠ url))).map QItem.url := by
      intro hmem
      simp only [List.mem_map] at hmem
      obtain ⟨i, hi, hiurl⟩ := hmem
      have := List.of_mem_filter hi
      simp only [decide_eq_true_eq] at this
      exact this hiurl
    refine ⟨?_, ?_, ?_, ?_⟩
    · rw [(hperm.map QItem.url).nodup_iff]
      rw [List.map_append]
      refine List.Nodup.append hfilter_nodup (by simp) ?_
      intro a ha hb
      simp only [List.map_cons, List.map_nil, List.mem_singleton] at hb
      subst hb
      exact hfilter_not ha
    · rw [hperm.countP_eq]
      rw [List.countP_append]
      have h0 : (s.queue.filter (fun i => decide (i.url ≠ url))).countP
          (fun i => decide (i.url = url)) = 0 := by
        rw [List.countP_eq_zero]
        intro i hi
        have := List.of_mem_filter hi
        simpa using this
      rw [h0]
      simp
    · rw [hperm.mem_iff]
      simp
    · intro i hi
      rw [hperm.mem_iff]
      simp only [List.mem_append, List.mem_filter, List.mem_singleton,
        decide_eq_true_eq]
      constructor
      · rintro (⟨hmem, _⟩ | hitem)
        · exact hmem
        · exact absurd (congrArg QItem.url hitem) (by simpa using hi)
      · intro hmem
        exact Or.inl ⟨hmem, hi⟩

/-- C4 witness: at a queue holding one item for "a" with "b" in flight and
"c" cached, adding "b" is a no-op and re-adding "a" coalesces. -/
theorem c4_enqueue_dedup_witness :
    ((⟨[⟨"a", 1, 2⟩], ["b"], 0⟩ : TPQueue).add ["c"] .idle "b" 9 9 =
      (⟨[⟨"a", 1, 2⟩], ["b"], 0⟩ : TPQueue))
    ∧ (⟨"a", 7, 8⟩ : QItem) ∈
        ((⟨[⟨"a", 1, 2⟩], ["b"], 0⟩ : TPQueue).add ["c"] .idle "a" 7 8).queue
    ∧ ((⟨[⟨"a", 1, 2⟩], ["b"], 0⟩ : TPQueue).add ["c"] .idle "a" 7 8).queue.countP
        (fun i => decide (i.url = "a")) = 1 := by
  have h1 := c4_enqueue_dedup ["c"] .idle (⟨[⟨"a", 1, 2⟩], ["b"], 0⟩ : TPQueue)
    "b" 9 9 (by decide)
  have h2 := c4_enqueue_dedup ["c"] .idle (⟨[⟨"a", 1, 2⟩], ["b"], 0⟩ : TPQueue)
    "a" 7 8 (by decide)
  refine ⟨h1.1 (Or.inl (by decide)), ?_, ?_⟩
  · exact (h2.2 (by decide) (by decide)).2.2.1
  · exact (h2.2 (by decide) (by decide)).2.1

/-! ## C7: the scroll-direction tie-break is dead code

`calculateViewportDistance` (lines 361 to 368) returns the absolute
distance `|elementCenter - viewportCenter|`, so an item does not record
whether it lies above or below the viewport; and in the comparator the
scroll-direction arm is only reached when `distanceDiff = 0`, where it
returns the same difference again, hence 0. -/

/-- An item above the viewport: equal priority and equal absolute
distance as `itemBelow`. -/
def itemAbove : QItem := ⟨"above", 5, 120⟩

/-- An item below the viewport, same priority and absolute distance. -/
def itemBelow : QItem := ⟨"below", 5, 120⟩

/-- C7.  For equal priority and equal distance the comparator returns 0 for
every scroll direction, so a downward scroll does not promote the
below-viewport item: the sort keeps stable (insertion) order exactly as in
the idle case. -/
theorem c7_scroll_tiebreak_dead :
    (∀ dir a b, a.priority = b.priority → a.distance = b.distance →
        queueCmp dir a b = 0)
    ∧ sortQueue .down [itemAbove, itemBelow] = [itemAbove, itemBelow]
    ∧ sortQueue .up [itemAbove, itemBelow] = [itemAbove, itemBelow]
    ∧ sortQueue .idle [itemAbove, itemBelow] = [itemAbove, itemBelow] := by
  refine ⟨?_, ?_, ?_, ?_⟩
  · intro dir a b hp hd
    cases dir <;> simp [queueCmp, hp, hd]
  · exact List.mergeSort_of_sorted (by decide)
  · exact List.mergeSort_of_sorted (by decide)
  · exact List.mergeSort_of_sorted (by decide)

/-- C7 witness: the comparator at the two concrete equal items under a
downward scroll. -/
theorem c7_scroll_tiebreak_dead_witness :
    queueCmp .down itemAbove itemBelow = 0 :=
  c7_scroll_tiebreak_dead.1 .down itemAbove itemBelow rfl rfl

/-! ## The hook's `preloadImage` callback (lines 334 to 344) -/

/-- What a `preloadImage` call does besides returning a resolved promise. -/
inductive PreloadCall
  | skip
  | markLoaded
  | enqueue
deriving DecidableEq

/-- JS `String.prototype.startsWith`, expressed on the characters. -/
def jsStartsWith (s p : String) : Bool := p.data.isPrefixOf s.data

/-- `preloadImage(url, priority)`: empty or `data:` urls return an
already-resolved promise immediately; cached urls are marked loaded; all
others are enqueued with the given priority (distance defaults to 0).
`cache` is the image cache's key set, which this function never mutates;
`loaded` is the `loadedImages` react state. -/
def preloadImageHook (url : String) (priority : Int) (cache : List String)
    (loaded : List String) (dir : ScrollDir) (s : TPQueue) :
    PreloadCall × List String × TPQueue :=
  if url = "" ∨ jsStartsWith url "data:" then (.skip, loaded, s)
  else if url ∈ cache then (.markLoaded, setAdd url loaded, s)
  else (.enqueue, loaded, s.add cache dir url priority 0)

/-- C9.  For every `data:` url and for the empty string, `preloadImage`
returns a resolved promise without enqueueing: the queue, the loaded set
and (trivially, since the function can never write it) the image cache are
unchanged. -/
theorem c9_data_url_skipped (url : String) (priority : Int)
    (cache loaded : List String) (dir : ScrollDir) (s : TPQueue)
    (h : url = "" ∨ jsStartsWith url "data:") :
    preloadImageHook url priority cache loaded dir s = (.skip, loaded, s) := by
  unfold preloadImageHook
  rw [if_pos h]

/-- C9 witness: a concrete `data:` url and the empty string. -/
theorem c9_data_url_skipped_witness :
    preloadImageHook "data:image/png;base64,AAA" 10 ["u"] [] .idle
        ⟨[], [], 0⟩ = (.skip, [], ⟨[], [], 0⟩)
    ∧ preloadImageHook "" 10 ["u"] [] .idle ⟨[], [], 0⟩ =
        (.skip, [], ⟨[], [], 0⟩) := by
  constructor
  · exact c9_data_url_skipped _ 10 ["u"] [] .idle ⟨[], [], 0⟩
      (Or.inr (by decide))
  · exact c9_data_url_skipped _ 10 ["u"] [] .idle ⟨[], [], 0⟩ (Or.inl rfl)

/-! ## `VideoMetadataLRUCache` (src/lib/videoUtils.ts, lines 1 to 131)

JS strings are modelled as `List Char`; `new Blob([s]).size` is the UTF-8
byte length, `s.length` the number of UTF-16 code units (equal to the
character count for the BMP strings involved).  `video.duration` is a JS
number; the integer model suffices for the cost bookkeeping below. -/

/-- A JS string. -/
abbrev JStr := List Char

/-- `new Blob([s]).size`: UTF-8 byte length. -/
def blobSize (s : JStr) : Nat := (s.map Char.utf8Size).sum

/-- The value type of `videoMetadataCache` (lines 124 to 129). -/
structure VMeta where
  width : Nat
  height : Nat
  duration : Nat
  posterUrl : JStr
deriving DecidableEq

/-- The JS literal "data:". -/
def dataPrefix : JStr := ['d', 'a', 't', 'a', ':']

/-- Byte size of `JSON.stringify({ width: w, height: h, duration: d })`:
the fixed JSON syntax contributes 9 + 10 + 12 + 1 ASCII bytes around the
three printed numbers. -/
def jsonMetaBlob (w h d : Nat) : Nat :=
  9 + (toString w).length + 10 + (toString h).length + 12 +
    (toString d).length + 1

/-- Estimated byte cost of one cache entry (`getMemoryUsage`, lines 78 to
107): key blob size, plus the posterUrl contribution (its length for
`data:` urls, 1024 for other non-empty urls, nothing for an empty url),
plus the JSON blob of the numeric fields. -/
def vmetaCost (k : JStr) (v : VMeta) : Nat :=
  blobSize k +
    (if v.posterUrl.isEmpty then 0
     else if dataPrefix.isPrefixOf v.posterUrl then v.posterUrl.length
     else 1024) +
    jsonMetaBlob v.width v.height v.duration

theorem vmetaCost_def (k : JStr) (v : VMeta) : vmetaCost k v =
    blobSize k +
      (if v.posterUrl.isEmpty then 0
       else if dataPrefix.isPrefixOf v.posterUrl then v.posterUrl.length
       else 1024) +
      jsonMetaBlob v.width v.height v.duration := rfl

/-- Total estimated byte cost of the cache (`getMemoryUsage` sums entry
costs; the method returns bytes / 2^20 as a double, which is exact, so the
comparison against the MB ceiling equals the integer comparison of bytes
against ceiling * 1048576). -/
def memBytes (l : List (JStr × VMeta)) : Nat :=
  (l.map (fun p => vmetaCost p.1 p.2)).sum

theorem memBytes_nil : memBytes [] = 0 := rfl

theorem memBytes_cons (k : JStr) (v : VMeta) (t : List (JStr × VMeta)) :
    memBytes ((k, v) :: t) = vmetaCost k v + memBytes t := rfl

/-- State of a `VideoMetadataLRUCache`. -/
structure VMCache where
  maxSize : Nat
  maxMemoryMB : Nat
  entries : List (JStr × VMeta)

/-- The `while (size >= maxSize)` loop of `evictIfNeeded` (lines 53 to
61): repeatedly delete the first entry; the `firstKey === undefined`
break fires only on the empty cache. -/
def evictSizeLoop (maxSize : Nat) : List (JStr × VMeta) → List (JStr × VMeta)
  | [] => []
  | p :: t =>
    if maxSize ≤ (p :: t).length then evictSizeLoop maxSize t else p :: t

/-- `evictIfNeeded` (lines 52 to 75).  After the size loop, if the memory
estimate exceeds the ceiling, evict `Math.ceil(size * 0.2)` oldest entries
in a single pass.  For every entry count n the double product `n * 0.2`
rounds to exactly n/5 when 5 divides n (the relative error of the literal
0.2 is about 2^-55, under half an ulp), and otherwise lies within 2^-50 of
a number at distance at least 1/5 from any integer; hence
`Math.ceil(n * 0.2) = (n + 4) / 5` in integer arithmetic. -/
def VMCache.evictIfNeeded (c : VMCache) : List (JStr × VMeta) :=
  let l1 := evictSizeLoop c.maxSize c.entries
  if c.maxMemoryMB * 1048576 < memBytes l1 then
    l1.drop ((l1.length + 4) / 5)
  else l1

/-- `VideoMetadataLRUCache.set` (lines 24 to 33): delete a present key
(move to end), otherwise run `evictIfNeeded`, then insert at the end. -/
def VMCache.set (c : VMCache) (k : JStr) (v : VMeta) : VMCache :=
  if (mapLookup k c.entries).isSome then
    ⟨c.maxSize, c.maxMemoryMB, mapSet k v (mapDelete k c.entries)⟩
  else
    ⟨c.maxSize, c.maxMemoryMB, mapSet k v c.evictIfNeeded⟩

/-- Max number of video metadata entries (line 121). -/
def VIDEO_METADATA_CACHE_SIZE : Nat := 200

/-- Max memory usage for video metadata in MB (line 122). -/
def VIDEO_METADATA_MEMORY_LIMIT_MB : Nat := 150

/-- The module-level `videoMetadataCache` instance (lines 124 to 129). -/
def videoMetadataCache0 : VMCache :=
  ⟨VIDEO_METADATA_CACHE_SIZE, VIDEO_METADATA_MEMORY_LIMIT_MB, []⟩

/-- A data url of 2^28 payload characters. -/
def hugePosterUrl : JStr := dataPrefix ++ List.replicate (2 ^ 28) 'a'

/-- A metadata record whose poster data url costs about 256 MB. -/
def hugeMeta : VMeta := ⟨640, 360, 0, hugePosterUrl⟩

/-- The cache after one `set` call on the fresh metadata cache. -/
def c2after : VMCache := videoMetadataCache0.set ['k'] hugeMeta

theorem c2after_entries : c2after.entries = [(['k'], hugeMeta)] := by
  unfold c2after videoMetadataCache0 VMCache.set
  norm_num [mapLookup, mapSet, VMCache.evictIfNeeded, evictSizeLoop, memBytes]

/-- C2 counterexample.  A single `set` call on the (empty, reachable)
video metadata cache completes with an estimated memory cost above the
150 MB ceiling: the eviction pass inspects only the pre-existing entries,
never the value being inserted. -/
theorem c2_memory_ceiling_violated :
    ¬ (memBytes c2after.entries ≤
        VIDEO_METADATA_MEMORY_LIMIT_MB * 1048576) := by
  rw [c2after_entries]
  have hlen : hugePosterUrl.length = 5 + 2 ^ 28 := by
    rw [hugePosterUrl, List.length_append, List.length_replicate]
    rfl
  have hproj : hugeMeta.posterUrl = hugePosterUrl := rfl
  have hempty : hugePosterUrl.isEmpty = false := rfl
  have hpre : dataPrefix.isPrefixOf hugePosterUrl = true := rfl
  have hjson : jsonMetaBlob hugeMeta.width hugeMeta.height
      hugeMeta.duration = 39 := rfl
  have hblob : blobSize ['k'] = 1 := rfl
  have hcost : vmetaCost ['k'] hugeMeta = 1 + (5 + 2 ^ 28) + 39 := by
    rw [vmetaCost_def, hjson, hblob, hproj, hempty, hpre,
      if_neg Bool.false_ne_true, if_pos rfl, hlen]
  rw [memBytes_cons, memBytes_nil, hcost, VIDEO_METADATA_MEMORY_LIMIT_MB]
  norm_num

theorem evictSizeLoop_of_lt {m : Nat} {l : List (JStr × VMeta)}
    (h : l.length < m) : evictSizeLoop m l = l := by
  cases l with
  | nil => rfl
  | cons p t =>
    unfold evictSizeLoop
    rw [if_neg (by omega)]

theorem mapKeys_drop_sublist (n : Nat) (l : List (JStr × VMeta)) :
    (mapKeys (l.drop n)).Sublist (mapKeys l) :=
  (List.drop_sublist n l).map Prod.fst

/-- C2 amended.  A `set` call on a new key while below the size ceiling
runs at most one memory-eviction pass over the pre-existing entries: if
their estimated cost is within the ceiling no entry is evicted, and
otherwise exactly the oldest ceil(20%) of them are dropped in one pass;
in both cases the new value is then appended regardless of its own cost,
so the post-call estimate is not bounded by the ceiling (see the
counterexample). -/
theorem c2_memory_eviction_one_pass (c : VMCache) (k : JStr) (v : VMeta)
    (hmem : k ∉ mapKeys c.entries)
    (hsize : c.entries.length < c.maxSize) :
    (memBytes c.entries ≤ c.maxMemoryMB * 1048576 →
        (c.set k v).entries = c.entries ++ [(k, v)])
    ∧ (c.maxMemoryMB * 1048576 < memBytes c.entries →
        (c.set k v).entries =
          c.entries.drop ((c.entries.length + 4) / 5) ++ [(k, v)]) := by
  have hhas : ¬(mapLookup k c.entries).isSome = true := fun h =>
    hmem (mapLookup_isSome_iff.mp h)
  have hloop : evictSizeLoop c.maxSize c.entries = c.entries :=
    evictSizeLoop_of_lt hsize
  constructor
  · intro hmemok
    unfold VMCache.set VMCache.evictIfNeeded
    rw [if_neg hhas]
    simp only [hloop, if_neg (not_lt.mpr hmemok)]
    rw [mapSet_of_not_mem v hmem]
  · intro hover
    unfold VMCache.set VMCache.evictIfNeeded
    rw [if_neg hhas]
    simp only [hloop, if_pos hover]
    have hmem' : k ∉ mapKeys (c.entries.drop ((c.entries.length + 4) / 5)) :=
      fun h => hmem ((mapKeys_drop_sublist _ _).mem h)
    rw [mapSet_of_not_mem v hmem']

/-- C2 amended witness: the first `set` on the fresh cache (cost 0 before
the call) appends without evicting. -/
theorem c2_memory_eviction_one_pass_witness :
    (videoMetadataCache0.set ['k'] hugeMeta).entries =
      videoMetadataCache0.entries ++ [(['k'], hugeMeta)] :=
  (c2_memory_eviction_one_pass videoMetadataCache0 ['k'] hugeMeta
      (by simp [videoMetadataCache0, mapKeys])
      (by simp [videoMetadataCache0, VIDEO_METADATA_CACHE_SIZE])).1
    (by simp [videoMetadataCache0, memBytes])

/-! ## `ImageDecoderService` (src/services/imageDecoderService.ts)

The worker path of `decodeImage` allocates the id `decode_${++counter}`
(modelled by the counter value itself, the string prefix being a fixed
injection), registers it in the `pendingRequests` map (modelled by its
insertion-ordered key list) and schedules a 30 s timeout.  The fallback
paths (no worker, base64 conversion failure) never touch the table and
are not part of the events below.  The `log` records, in order, every
settlement of a pending promise. -/

/-- How a pending decode promise settles. -/
inductive DecodeOutcome
  | resolved
  | decodeFailed
  | timedOut
  | workerFailed
  | terminated
deriving DecidableEq

/-- The hard timeout of `decodeImage` (line 176): 30 seconds. -/
def DECODE_TIMEOUT_MS : Nat := 30000

/-- Mutable state of the service: `requestIdCounter`, the keys of
`pendingRequests` in insertion order, the scheduled timeouts (id, expiry),
and the settlement log. -/
structure DecoderState where
  counter : Nat
  pending : List Nat
  timers : List (Nat × Nat)
  log : List (Nat × DecodeOutcome)
deriving DecidableEq

/-- The external events the service reacts to: a `decodeImage` call taking
the worker path (at wall time `now`), a worker response for a given id, a
worker error, the firing of a scheduled timeout, and `terminate`. -/
inductive DecoderEvent
  | decode (now : Nat)
  | workerMsg (id : Nat) (success : Bool)
  | workerErr
  | timeoutFire (id : Nat)
  | terminate
deriving DecidableEq

/-- One step of the service.
* `decode` (lines 157 to 177): fresh id `counter + 1`, registered pending,
  timeout scheduled at `now + 30000`.
* `workerMsg` (`handleWorkerMessage`, lines 68 to 106): a response for an
  unknown id is ignored; otherwise the id is removed and its promise
  resolved or rejected once.
* `workerErr` (`handleWorkerError`, lines 108 to 119): rejects all pending
  requests and clears the table.
* `timeoutFire` (lines 171 to 176): if the id is still pending, remove it
  and reject with the timeout error; otherwise nothing.
* `terminate` (lines 297 to 309): rejects all pending and clears. -/
def decoderStep (s : DecoderState) : DecoderEvent → DecoderState
  | .decode now =>
    { s with
      counter := s.counter + 1
      pending := s.pending ++ [s.counter + 1]
      timers := s.timers ++ [(s.counter + 1, now + DECODE_TIMEOUT_MS)] }
  | .workerMsg id success =>
    if id ∈ s.pending then
      { s with
        pending := s.pending.erase id
        log := s.log ++
          [(id, if success then .resolved else .decodeFailed)] }
    else s
  | .workerErr =>
    { s with
      pending := []
      log := s.log ++ s.pending.map (fun i => (i, .workerFailed)) }
  | .timeoutFire id =>
    if id ∈ s.pending then
      { s with
        pending := s.pending.erase id
        log := s.log ++ [(id, .timedOut)] }
    else s
  | .terminate =>
    { s with
      pending := []
      log := s.log ++ s.pending.map (fun i => (i, .terminated)) }

/-- The freshly constructed service. -/
def decoderInit : DecoderState := ⟨0, [], [], []⟩

/-- Run a list of events left to right. -/
def runDecoder (s : DecoderState) (es : List DecoderEvent) : DecoderState :=
  es.foldl decoderStep s

theorem runDecoder_cons (s : DecoderState) (e : DecoderEvent)
    (t : List DecoderEvent) :
    runDecoder s (e :: t) = runDecoder (decoderStep s e) t := rfl

/-- The ids that have settled so far. -/
def logIds (s : DecoderState) : List Nat := s.log.map Prod.fst

/-- Well-formedness: pending ids are distinct, allocated (≤ counter) and
unsettled; settled ids are distinct and allocated. -/
def DecoderInv (s : DecoderState) : Prop :=
  s.pending.Nodup
  ∧ (∀ i ∈ s.pending, i ≤ s.counter)
  ∧ (logIds s).Nodup
  ∧ (∀ i ∈ logIds s, i ≤ s.counter)
  ∧ (∀ i ∈ s.pending, i ∉ logIds s)

theorem decoderInv_init : DecoderInv decoderInit := by
  refine ⟨?_, ?_, ?_, ?_, ?_⟩ <;> simp [decoderInit, logIds]

theorem decoderStep_counter_le (s : DecoderState) (e : DecoderEvent) :
    s.counter ≤ (decoderStep s e).counter := by
  cases e with
  | decode now => simp [decoderStep]
  | workerMsg id success =>
    by_cases h : id ∈ s.pending <;> simp [decoderStep, h]
  | workerErr => simp [decoderStep]
  | timeoutFire id =>
    by_cases h : id ∈ s.pending <;> simp [decoderStep, h]
  | terminate => simp [decoderStep]

theorem map_fst_tag (l : List Nat) (o : DecodeOutcome) :
    (l.map (fun i => (i, o))).map Prod.fst = l := by
  induction l with
  | nil => rfl
  | cons a t ih => simp only [List.map_cons, ih]

theorem settleOne_inv {s : DecoderState} (hinv : DecoderInv s) (id : Nat)
    (o : DecodeOutcome) (h : id ∈ s.pending) :
    DecoderInv
      { s with pending := s.pending.erase id, log := s.log ++ [(id, o)] } := by
  obtain ⟨hnd, hbound, hlnd, hlbound, hdisj⟩ := hinv
  refine ⟨hnd.erase id, ?_, ?_, ?_, ?_⟩
  · intro i hi
    exact hbound i (List.mem_of_mem_erase hi)
  · simp only [logIds, List.map_append, List.map_cons, List.map_nil]
    rw [List.nodup_append]
    refine ⟨hlnd, by simp, ?_⟩
    intro a ha hb
    simp only [List.mem_singleton] at hb
    subst hb
    exact hdisj _ h ha
  · intro i hi
    simp only [logIds, List.map_append, List.map_cons, List.map_nil,
      List.mem_append, List.mem_singleton] at hi
    rcases hi with hi | hi
    · exact hlbound i hi
    · subst hi
      exact hbound i h
  · intro i hi
    simp only at hi
    simp only [logIds, List.map_append, List.map_cons, List.map_nil,
      List.mem_append, List.mem_singleton]
    push_neg
    constructor
    · exact hdisj i (List.mem_of_mem_erase hi)
    · exact (hnd.mem_erase_iff.mp hi).1

theorem settleAll_inv {s : DecoderState} (hinv : DecoderInv s)
    (o : DecodeOutcome) :
    DecoderInv
      { s with pending := [],
               log := s.log ++ s.pending.map (fun i => (i, o)) } := by
  obtain ⟨hnd, hbound, hlnd, hlbound, hdisj⟩ := hinv
  refine ⟨by simp, by simp, ?_, ?_, by simp⟩
  · simp only [logIds, List.map_append]
    rw [List.nodup_append, map_fst_tag]
    refine ⟨hlnd, hnd, ?_⟩
    intro a ha hb
    exact hdisj a hb ha
  · intro i hi
    simp only [logIds, List.map_append, List.mem_append, map_fst_tag] at hi
    rcases hi with hi | hi
    · exact hlbound i hi
    · exact hbound i hi

theorem decoderStep_inv {s : DecoderState} (hinv : DecoderInv s)
    (e : DecoderEvent) : DecoderInv (decoderStep s e) := by
  cases e with
  | decode now =>
    obtain ⟨hnd, hbound, hlnd, hlbound, hdisj⟩ := hinv
    refine ⟨?_, ?_, ?_, ?_, ?_⟩
    · simp only [decoderStep]
      rw [List.nodup_append]
      refine ⟨hnd, List.nodup_singleton _, ?_⟩
      intro a ha hb
      simp only [List.mem_singleton] at hb
      subst hb
      exact absurd (hbound _ ha) (by omega)
    · intro i hi
      simp only [decoderStep, List.mem_append, List.mem_singleton] at hi
      simp only [decoderStep]
      rcases hi with hi | hi
      · have := hbound i hi
        omega
      · omega
    · simpa [decoderStep, logIds] using hlnd
    · intro i hi
      simp only [decoderStep, logIds] at hi ⊢
      have := hlbound i hi
      omega
    · intro i hi
      simp only [decoderStep, List.mem_append, List.mem_singleton] at hi
      simp only [decoderStep, logIds]
      rcases hi with hi | hi
      · exact hdisj i hi
      · subst hi
        intro hmem
        exact absurd (hlbound _ hmem) (by omega)
  | workerMsg id success =>
    by_cases h : id ∈ s.pending
    · simp only [decoderStep, if_pos h]
      exact settleOne_inv hinv id _ h
    · simpa [decoderStep, if_neg h] using hinv
  | workerErr =>
    simp only [decoderStep]
    exact settleAll_inv hinv _
  | timeoutFire id =>
    by_cases h : id ∈ s.pending
    · simp only [decoderStep, if_pos h]
      exact settleOne_inv hinv id _ h
    · simpa [decoderStep, if_neg h] using hinv
  | terminate =>
    simp only [decoderStep]
    exact settleAll_inv hinv _

theorem runDecoder_inv {s : DecoderState} (hinv : DecoderInv s)
    (es : List DecoderEvent) : DecoderInv (runDecoder s es) := by
  induction es generalizing s with
  | nil => exact hinv
  | cons e t ih => exact ih (decoderStep_inv hinv e)

/-- Whether an event can settle or remove the pending request `id`:
a worker response for that id, a worker error or a terminate (which reject
everything), or the firing of that id's own timeout. -/
def touchesId (id : Nat) : DecoderEvent → Bool
  | .workerMsg i _ => i = id
  | .workerErr => true
  | .terminate => true
  | .timeoutFire i => i = id
  | .decode _ => false

theorem run_untouched {id T : Nat} {s : DecoderState}
    {es : List DecoderEvent} (hid : id ∈ s.pending) (hctr : id ≤ s.counter)
    (htm : (id, T) ∈ s.timers)
    (hes : ∀ e ∈ es, touchesId id e = false) :
    id ∈ (runDecoder s es).pending
    ∧ (id, T) ∈ (runDecoder s es).timers
    ∧ id ≤ (runDecoder s es).counter := by
  induction es generalizing s with
  | nil => exact ⟨hid, htm, hctr⟩
  | cons e t ih =>
    have hes' : ∀ e' ∈ t, touchesId id e' = false := fun e' he' =>
      hes e' (List.mem_cons_of_mem e he')
    have he : touchesId id e = false := hes e (List.mem_cons_self e t)
    have hstep : id ∈ (decoderStep s e).pending
        ∧ (id, T) ∈ (decoderStep s e).timers
        ∧ id ≤ (decoderStep s e).counter := by
      cases e with
      | decode now =>
        refine ⟨?_, ?_, ?_⟩
        · simp only [decoderStep, List.mem_append]
          exact Or.inl hid
        · simp only [decoderStep, List.mem_append]
          exact Or.inl htm
        · simp only [decoderStep]
          omega
      | workerMsg i bb =>
        have hne : i ≠ id := by
          simpa [touchesId] using he
        by_cases hmem : i ∈ s.pending
        · simp only [decoderStep, if_pos hmem]
          exact ⟨(List.mem_erase_of_ne (fun h => hne h.symm)).mpr hid,
            htm, hctr⟩
        · simp only [decoderStep, if_neg hmem]
          exact ⟨hid, htm, hctr⟩
      | workerErr => simp [touchesId] at he
      | timeoutFire i =>
        have hne : i ≠ id := by
          simpa [touchesId] using he
        by_cases hmem : i ∈ s.pending
        · simp only [decoderStep, if_pos hmem]
          exact ⟨(List.mem_erase_of_ne (fun h => hne h.symm)).mpr hid,
            htm, hctr⟩
        · simp only [decoderStep, if_neg hmem]
          exact ⟨hid, htm, hctr⟩
      | terminate => simp [touchesId] at he
    rw [runDecoder_cons]
    exact ih hstep.1 hstep.2.2 hstep.2.1 hes'

/-- C5.  A decode request (worker path) whose underlying operation never
settles: after the `decode` call at time `t0` allocating id
`s0.counter + 1` and any further events that do not touch that id, the
scheduled timer for the id expires at exactly `t0 + 30000`; at that point
the id is still pending, the timeout rejection settles it as `timedOut`
and removes it from the table, and a later `decode` call registers a
fresh pending request. -/
theorem c5_decode_timeout (s0 s1 s2 s3 : DecoderState) (id t0 t1 : Nat)
    (es : List DecoderEvent) (hinv : DecoderInv s0)
    (hid : id = s0.counter + 1)
    (hs1 : s1 = decoderStep s0 (.decode t0))
    (hes : ∀ e ∈ es, touchesId id e = false)
    (hs2 : s2 = runDecoder s1 es)
    (hs3 : s3 = decoderStep s2 (.timeoutFire id)) :
    (id, t0 + DECODE_TIMEOUT_MS) ∈ s2.timers
    ∧ id ∈ s2.pending
    ∧ s3.log = s2.log ++ [(id, .timedOut)]
    ∧ id ∉ s3.pending
    ∧ (decoderStep s3 (.decode t1)).pending = s3.pending ++ [s3.counter + 1] := by
  subst hid hs1 hs2 hs3
  have h1 : s0.counter + 1 ∈ (decoderStep s0 (.decode t0)).pending := by
    simp [decoderStep]
  have htm : (s0.counter + 1, t0 + DECODE_TIMEOUT_MS) ∈
      (decoderStep s0 (.decode t0)).timers := by
    simp [decoderStep]
  have hctr : s0.counter + 1 ≤ (decoderStep s0 (.decode t0)).counter := by
    simp [decoderStep]
  obtain ⟨hp, ht, _⟩ := run_untouched h1 hctr htm hes
  have hinv2 : DecoderInv (runDecoder (decoderStep s0 (.decode t0)) es) :=
    runDecoder_inv (decoderStep_inv hinv _) es
  revert hp ht hinv2
  generalize runDecoder (decoderStep s0 (.decode t0)) es = s2v
  intro hp ht hinv2
  refine ⟨ht, hp, ?_, ?_, rfl⟩
  · simp only [decoderStep, if_pos hp]
  · simp only [decoderStep, if_pos hp]
    intro hmem
    exact (hinv2.1.mem_erase_iff.mp hmem).1 rfl

/-- C5 witness: from the fresh service, decode at time 0 (id 1), then an
unrelated decode at time 5; firing id 1's timeout rejects it, and a decode
at time 40000 starts a fresh request. -/
theorem c5_decode_timeout_witness :
    (1, 0 + DECODE_TIMEOUT_MS) ∈
      (runDecoder (decoderStep decoderInit (.decode 0)) [.decode 5]).timers
    ∧ 1 ∈ (runDecoder (decoderStep decoderInit (.decode 0)) [.decode 5]).pending
    ∧ (decoderStep (runDecoder (decoderStep decoderInit (.decode 0))
          [.decode 5]) (.timeoutFire 1)).log =
        (runDecoder (decoderStep decoderInit (.decode 0)) [.decode 5]).log ++
          [(1, .timedOut)]
    ∧ 1 ∉ (decoderStep (runDecoder (decoderStep decoderInit (.decode 0))
          [.decode 5]) (.timeoutFire 1)).pending
    ∧ (decoderStep (decoderStep (runDecoder (decoderStep decoderInit
          (.decode 0)) [.decode 5]) (.timeoutFire 1)) (.decode 40000)).pending =
        (decoderStep (runDecoder (decoderStep decoderInit (.decode 0))
          [.decode 5]) (.timeoutFire 1)).pending ++
          [(decoderStep (runDecoder (decoderStep decoderInit (.decode 0))
              [.decode 5]) (.timeoutFire 1)).counter + 1] :=
  c5_decode_timeout decoderInit _ _ _ 1 0 40000 [.decode 5]
    decoderInv_init rfl rfl (by decide) rfl rfl

/-- C10.  Every worker-path decode call allocates the fresh id
`counter + 1` from the strictly increasing counter — an id that was never
pending nor settled before; a worker response whose id is not pending is
ignored completely; and along any event history each id settles at most
once (the settlement log never repeats an id). -/
theorem c10_fresh_ids_unknown_ignored (es : List DecoderEvent) (id : Nat)
    (b : Bool) (now : Nat) :
    ((decoderStep (runDecoder decoderInit es) (.decode now)).counter =
        (runDecoder decoderInit es).counter + 1
      ∧ (runDecoder decoderInit es).counter + 1 ∉
          (runDecoder decoderInit es).pending
      ∧ (runDecoder decoderInit es).counter + 1 ∉
          logIds (runDecoder decoderInit es))
    ∧ (id ∉ (runDecoder decoderInit es).pending →
        decoderStep (runDecoder decoderInit es) (.workerMsg id b) =
          runDecoder decoderInit es)
    ∧ (logIds (runDecoder decoderInit es)).Nodup := by
  have hinv : DecoderInv (runDecoder decoderInit es) :=
    runDecoder_inv decoderInv_init es
  refine ⟨⟨rfl, ?_, ?_⟩, ?_, hinv.2.2.1⟩
  · intro hmem
    exact absurd (hinv.2.1 _ hmem) (by omega)
  · intro hmem
    exact absurd (hinv.2.2.2.1 _ hmem) (by omega)
  · intro hmem
    simp only [decoderStep, if_neg hmem]

/-- C10 witness: after decode, a successful response for id 1, and another
decode, a response for the unknown id 7 is ignored and the log has one
settlement per id. -/
theorem c10_fresh_ids_unknown_ignored_witness :
    (decoderStep
        (runDecoder decoderInit [.decode 0, .workerMsg 1 true, .decode 3])
        (.workerMsg 7 false) =
      runDecoder decoderInit [.decode 0, .workerMsg 1 true, .decode 3])
    ∧ (logIds (runDecoder decoderInit
        [.decode 0, .workerMsg 1 true, .decode 3])).Nodup := by
  have h := c10_fresh_ids_unknown_ignored
    [.decode 0, .workerMsg 1 true, .decode 3] 7 false 9
  exact ⟨h.2.1 (by decide), h.2.2⟩

end Pixelcrate
